import Mathlib

/-!
Verification of the segment-aware preprocessing pipeline and design-matrix
builders of `glhmm/preproc.py`, via a shallow embedding in Lean 4.

Dense numeric arrays are modelled by `Mat`: a rows/cols pair together with a
total entry function `ℕ → ℕ → ℚ` (entries outside the declared bounds are
irrelevant junk).  NumPy operations that the source composes are translated
entry-wise; loops that write into preallocated arrays become folds whose steps
update the entry function on the written index ranges.  Irrational numerical
primitives of the underlying libraries (square roots for `np.std`, the Hilbert
transform, the fitted PCA/ICA decompositions) are passed in as explicit
function parameters, mirroring how the source treats them as external
capabilities; everything the repository's own code computes (index
bookkeeping, means, matrix products, the ridge solve, masks, column
selection) is embedded concretely over `ℚ`.
-/

set_option maxHeartbeats 1000000

namespace GLHMM

/-- A dense rational matrix: `rows × cols` with a total entry function. -/
structure Mat where
  rows : ℕ
  cols : ℕ
  entry : ℕ → ℕ → ℚ

/-- `np.zeros((r, c))`. -/
def Mat.zeros (r c : ℕ) : Mat := ⟨r, c, fun _ _ => 0⟩

/-- `np.empty(0)`: the one-dimensional empty array (0 rows). -/
def Mat.empty1d : Mat := ⟨0, 0, fun _ _ => 0⟩

/-- Sum of column `c` over the declared rows. -/
def Mat.colSum (M : Mat) (c : ℕ) : ℚ := ∑ i in Finset.range M.rows, M.entry i c

/-- `np.mean(M, axis=0)` at column `c`. -/
def Mat.colMean (M : Mat) (c : ℕ) : ℚ := M.colSum c / (M.rows : ℚ)

/-- `M - np.mean(M, axis=0)`: subtract each column's mean from its entries. -/
def Mat.centerCols (M : Mat) : Mat :=
  ⟨M.rows, M.cols, fun r c => M.entry r c - M.colMean c⟩

/-- Population variance of column `c` (so `np.std` is its square root). -/
def Mat.colVar (M : Mat) (c : ℕ) : ℚ :=
  (∑ i in Finset.range M.rows, (M.entry i c - M.colMean c) ^ 2) / (M.rows : ℚ)

/-- `M[:, idx]`: gather the listed columns into a fresh matrix. -/
def Mat.selectCols (M : Mat) (idx : List ℕ) : Mat :=
  ⟨M.rows, idx.length, fun r c => M.entry r (idx.getD c 0)⟩

/-- `np.concatenate((A, B), 1)` for same-height matrices. -/
def Mat.hconcat (A B : Mat) : Mat :=
  ⟨A.rows, A.cols + B.cols, fun r c => if c < A.cols then A.entry r c else B.entry r (c - A.cols)⟩

/-! ### Resolution of the `dampen_extreme_peaks` argument (preproc.py 231-241)

`preprocess_data` accepts `None`, `True`, or an `int` for
`dampen_extreme_peaks`.  The source resolves the dampening strength with

    if isinstance(dampen_extreme_peaks, int):
        strength = dampen_extreme_peaks
    else:
        strength = 5

In Python, `bool` is a subclass of `int`, so `isinstance(True, int)` is
`True`; `PyDampenArg` models the three admissible Python values and
`isinstanceInt` models Python's `isinstance(·, int)` accordingly. -/

/-- The Python values admissible for `dampen_extreme_peaks`. -/
inductive PyDampenArg where
  | pynone : PyDampenArg
  | pybool (b : Bool) : PyDampenArg
  | pyint (n : ℤ) : PyDampenArg
deriving DecidableEq

/-- Python truthiness of the argument (`if dampen_extreme_peaks:`). -/
def PyDampenArg.truthy : PyDampenArg → Bool
  | .pynone => false
  | .pybool b => b
  | .pyint n => n ≠ 0

/-- Python's `isinstance(·, int)`; `bool` is a subclass of `int`. -/
def PyDampenArg.isinstanceInt : PyDampenArg → Bool
  | .pynone => false
  | .pybool _ => true
  | .pyint _ => true

/-- Numeric value of the argument (`True` counts as `1`). -/
def PyDampenArg.toInt : PyDampenArg → ℤ
  | .pynone => 0
  | .pybool b => if b then 1 else 0
  | .pyint n => n

/-- preproc.py 237-240: the dampening strength (logarithm base) that
`preprocess_data` passes to `dampen_peaks`. -/
def resolvedDampenStrength (d : PyDampenArg) : ℤ :=
  if d.isinstanceInt then d.toInt else 5

/-- preproc.py 125-128, `dampen_peaks`: with std and log supplied as abstract
numerical primitives (`stdQ` is the dataset-wide `np.std(X)`, `logQ` the
natural logarithm), any entry with `|x| > 2·std` is replaced by
`sign(x)·(2σ − log(2σ)/log(strength) + log|x|/log(strength))`. -/
def dampen_peaks (stdQ : Mat → ℚ) (logQ : ℚ → ℚ) (X : Mat) (strength : ℤ) : Mat :=
  let sigma2 := 2 * stdQ X
  ⟨X.rows, X.cols, fun r c =>
    let x := X.entry r c
    if |x| > sigma2 then
      (if x < 0 then (-1 : ℚ) else 1) *
        (sigma2 - logQ sigma2 / logQ (strength : ℚ) + logQ |x| / logQ (strength : ℚ))
    else x⟩

/-! ### Ridge-regularised regress-out (preproc.py 390-395 and 450-455)

`b = np.linalg.inv(X[:,jj].T @ X[:,jj] + 0.001*np.eye(len(jj))) @ (X[:,jj].T @ Y[:,j])`
followed by `Y[:,j] -= X[:,jj] @ b`.  The inverse is realised over `ℚ` by the
adjugate formula. -/

/-- The ridge-regularised OLS coefficients `b` for target column `j` of `Yfit`
on the predictor columns `jj` of `X`. -/
def ridgeCoefs (X Yfit : Mat) (jj : List ℕ) (j : ℕ) : ℕ → ℚ :=
  let n := jj.length
  let A : Matrix (Fin n) (Fin n) ℚ := fun a b =>
    (∑ r in Finset.range X.rows, X.entry r (jj.get a) * X.entry r (jj.get b)) +
      if a = b then 1 / 1000 else 0
  let v : Fin n → ℚ := fun a => ∑ r in Finset.range X.rows, X.entry r (jj.get a) * Yfit.entry r j
  let Ainv := (A.det)⁻¹ • A.adjugate
  fun a => if h : a < n then ∑ b : Fin n, Ainv ⟨a, h⟩ b * v b else 0

/-- `Y[:,j] -= X[:,jj] @ b` where `b` is fitted from `Yfit` (the source array
the coefficients are computed against, which may alias the updated one). -/
def subtractFit (X Yfit : Mat) (jj : List ℕ) (j : ℕ) (Yupd : Mat) : Mat :=
  let b := ridgeCoefs X Yfit jj j
  { Yupd with entry := fun r c =>
      if c = j then
        Yupd.entry r c - ∑ a in Finset.range jj.length, X.entry r (jj.getD a 0) * b a
      else Yupd.entry r c }

/-! ### `build_data_partial_connectivity` (preproc.py 413-475) -/

/-- Result triple of `build_data_partial_connectivity`. -/
structure PCResult where
  X : Mat
  Y : Mat
  conn : Option Mat

/-- preproc.py 413-475.  `X_new`/`Y_new` are copies of the inputs; the
regress-out loop updates `Y_new`; the active-set pruning in the source is
applied to the *local* variables `X`, `Y` (which are then discarded), while
the restricted connectivity is built from the active index sets; finally the
returned pair is optionally centered. -/
def build_data_partial_connectivity (X Y : Mat) (conn : Option Mat)
    (center_data : Bool) : PCResult :=
  let X_new := X
  let Y_new0 := Y
  match conn with
  | some C =>
    let p := X.cols
    let q := Y.cols
    let Y_new := (List.range q).foldl (fun Yn j =>
        let jj := (List.range p).filter (fun a => decide (C.entry a j = 0))
        if jj.isEmpty then Yn else subtractFit X Y jj j Yn) Y_new0
    let activeXidx := (List.range p).filter (fun a =>
        (List.range q).any (fun b => decide (C.entry a b = 1)))
    let activeYidx := (List.range q).filter (fun b =>
        (List.range p).any (fun a => decide (C.entry a b = 1)))
    -- the source prunes its local `X`, `Y` here (`Y = Y[:,active_Y]` etc.);
    -- those locals are dead after this point and do not reach the return
    let conn_new : Mat := ⟨activeXidx.length, activeYidx.length,
        fun a b => C.entry (activeXidx.getD a 0) (activeYidx.getD b 0)⟩
    if center_data then ⟨X_new.centerCols, Y_new.centerCols, some conn_new⟩
    else ⟨X_new, Y_new, some conn_new⟩
  | none =>
    if center_data then ⟨X_new.centerCols, Y_new0.centerCols, none⟩
    else ⟨X_new, Y_new0, none⟩

/-! ### `build_data_autoregressive` (preproc.py 323-410) -/

/-- Result of `build_data_autoregressive`, with `warned` recording whether the
non-fatal `warnings.warn` advisory was emitted. -/
structure ARResult where
  X : Mat
  Y : Mat
  indicesNew : List (ℕ × ℕ)
  conn : Option Mat
  warned : Bool

/-- preproc.py 370: `Y[ind_2,:] = data[ind_1,:]` for segment `j` with bounds
`[s, e)`; an output row `r` lies in `ind_2` iff `s ≤ r + j·k < e − k`. -/
def arWriteY (data : Mat) (k j s e : ℕ) (Y : Mat) : Mat :=
  { Y with entry := fun r c =>
      if s ≤ r + j * k ∧ r + j * k + k < e then data.entry (r + j * k + k) c
      else Y.entry r c }

/-- preproc.py 371-374: `X[ind_2, ind_ch[:,None]] = data[ind_3,:].T` for lag
`i` of segment `j`: rows of `ind_2`, column block `[i·p, i·p + p)`, source
sample `k − (i+1)` steps before the target sample. -/
def arWriteXlag (data : Mat) (k j s e p : ℕ) (X : Mat) (i : ℕ) : Mat :=
  { X with entry := fun r c =>
      if (s ≤ r + j * k ∧ r + j * k + k < e) ∧ i * p ≤ c ∧ c < i * p + p then
        data.entry (r + j * k + (k - (i + 1))) (c - i * p)
      else X.entry r c }

/-- One iteration of the per-segment loop (preproc.py 366-376): write the
target rows, write every lag block, and append the new segment bounds. -/
def arSegment (data : Mat) (indices : List (ℕ × ℕ)) (k p : ℕ)
    (acc : Mat × Mat × List (ℕ × ℕ)) (j : ℕ) : Mat × Mat × List (ℕ × ℕ) :=
  let s := (indices.getD j (0, 0)).1
  let e := (indices.getD j (0, 0)).2
  let Y := arWriteY data k j s e acc.2.1
  let X := (List.range k).foldl (arWriteXlag data k j s e p) acc.1
  (X, Y, acc.2.2 ++ [(s - j * k, e - (j + 1) * k)])

/-- preproc.py 323-410, `build_data_autoregressive` with order `k`.
Order `0` is the deliberate no-op branch (358-360): the input is returned as
`Y` with an empty `X`, unchanged indices and connectivity, and the advisory
flag set.  Otherwise each session must be longer than `k` (the source indexes
`ind_2[0]`, an `IndexError` on an empty session), the per-segment loop fills
`X`/`Y`, the result is optionally centered with dataset-wide means, and a
given connectivity is replicated across lag blocks, regressed out and
pruned. -/
def build_data_autoregressive (data : Mat) (indices : List (ℕ × ℕ)) (k : ℕ)
    (conn : Option Mat) (center_data : Bool) : Option ARResult :=
  if k = 0 then some ⟨Mat.empty1d, data, indices, conn, true⟩
  else if indices.all (fun se => decide (se.1 + k < se.2)) then
    let T := data.rows
    let p := data.cols
    let N := indices.length
    let init : Mat × Mat × List (ℕ × ℕ) :=
      (Mat.zeros (T - N * k) (p * k), Mat.zeros (T - N * k) p, [])
    let res := (List.range N).foldl (arSegment data indices k p) init
    let X0 := if center_data then res.1.centerCols else res.1
    let Y0 := if center_data then res.2.1.centerCols else res.2.1
    match conn with
    | none => some ⟨X0, Y0, res.2.2, none, false⟩
    | some C =>
      let kp := k * p
      let Cn : Mat := ⟨kp, p, fun a b => C.entry (a % p) b⟩
      let Y1 := (List.range p).foldl (fun Yn j =>
          let jj := (List.range kp).filter (fun a => decide (Cn.entry a j = 0))
          if jj.isEmpty then Yn else subtractFit X0 Yn jj j Yn) Y0
      let activeXidx := (List.range kp).filter (fun a =>
          (List.range p).any (fun b => decide (C.entry (a % p) b = 1)))
      let activeYidx := (List.range p).filter (fun b =>
          (List.range p).any (fun a => decide (C.entry a b = 1)))
      let X2 := X0.selectCols activeXidx
      let Y2 := Y1.selectCols activeYidx
      let Cn2 : Mat := ⟨activeXidx.length, activeYidx.length,
          fun a b => Cn.entry (activeXidx.getD a 0) (activeYidx.getD b 0)⟩
      some ⟨X2, Y2, res.2.2, some Cn2, false⟩
  else none

/-! ### Concrete instances used by the claim theorems -/

/-- 2×2 identity used as both `X` and `Y` in the C1 failing input. -/
def c1Data : Mat := ⟨2, 2, fun r c => if r = c then 1 else 0⟩

/-- C1 failing connectivity: predictor 0 → target 0 is the only permitted
edge, so predictor 1 and target 1 are inactive and should be dropped. -/
def c1Conn : Mat := ⟨2, 2, fun r c => if r = 0 ∧ c = 0 then 1 else 0⟩

/-- C1 (code bug): on the 2×2 failing input with a single permitted edge, the
active predictor/target sets have size 1 and the returned connectivity is
restricted to 1×1, but the returned `X` and `Y` still carry both columns —
the source prunes only its discarded local variables, contradicting its own
docstring (`X_new : ... (n_samples, n_active_parcels)`). -/
theorem c1_partial_connectivity_returns_unpruned_columns :
    (build_data_partial_connectivity c1Data c1Data (some c1Conn) false).X.cols = 2 ∧
    (build_data_partial_connectivity c1Data c1Data (some c1Conn) false).Y.cols = 2 ∧
    ((build_data_partial_connectivity c1Data c1Data (some c1Conn) false).conn.map
      Mat.rows) = some 1 ∧
    ((build_data_partial_connectivity c1Data c1Data (some c1Conn) false).conn.map
      Mat.cols) = some 1 := by
  refine ⟨rfl, rfl, ?_, ?_⟩ <;> decide

/-- C3 (code bug): enabling peak dampening with the Python value `True`
resolves the strength (the logarithm base) to `1`, because `bool` is a
subclass of `int` and `isinstance(True, int)` holds — not to the documented
default `5`; the `else: strength = 5` branch is unreachable for `True`, and
base 1 makes `log(strength) = 0`, a division by zero in `dampen_peaks`. -/
theorem c3_dampen_true_resolves_strength_one :
    resolvedDampenStrength (.pybool true) = 1 ∧
    resolvedDampenStrength (.pybool true) ≠ 5 := by
  decide

/-! ### Segment validity and ordering lemmas -/

/-- A well-formed SegmentIndex for a windowed builder of window `k`: ordered,
non-overlapping, and every segment strictly longer than the window. -/
def ValidSegs (indices : List (ℕ × ℕ)) (k : ℕ) : Prop :=
  indices.Pairwise (fun a b => a.2 ≤ b.1) ∧ ∀ se ∈ indices, se.1 + k < se.2

theorem seg_start_lb (l : List (ℕ × ℕ)) (k : ℕ)
    (hord : l.Pairwise (fun a b => a.2 ≤ b.1))
    (hlen : ∀ se ∈ l, se.1 + k < se.2) :
    ∀ (bnd : ℕ), (∀ se ∈ l, bnd ≤ se.1) →
      ∀ j se, l[j]? = some se → bnd + j * (k + 1) ≤ se.1 := by
  induction l with
  | nil => intro bnd _ j se h; simp at h
  | cons x xs ih =>
    intro bnd hbnd j se h
    rcases List.pairwise_cons.mp hord with ⟨hx, hord2⟩
    cases j with
    | zero =>
      simp only [List.getElem?_cons_zero, Option.some.injEq] at h
      subst h
      simpa using hbnd x (List.mem_cons_self x xs)
    | succ j =>
      simp only [List.getElem?_cons_succ] at h
      have hx2 : x.1 + k < x.2 := hlen x (by simp)
      have hb : bnd ≤ x.1 := hbnd x (by simp)
      have hrec := ih hord2 (fun se hse => hlen se (by simp [hse])) x.2
        (fun se hse => hx se hse) j se h
      have hmul : (j + 1) * (k + 1) = j * (k + 1) + (k + 1) := by ring
      rw [hmul]
      linarith

theorem seg_chain_gap (l : List (ℕ × ℕ)) (k : ℕ)
    (hord : l.Pairwise (fun a b => a.2 ≤ b.1))
    (hlen : ∀ se ∈ l, se.1 + k < se.2) :
    ∀ a b sea seb, a < b → l[a]? = some sea → l[b]? = some seb →
      sea.2 + (b - a - 1) * (k + 1) ≤ seb.1 := by
  induction l with
  | nil => intro a b sea seb _ ha _; simp at ha
  | cons x xs ih =>
    intro a b sea seb hab ha hb
    rcases List.pairwise_cons.mp hord with ⟨hx, hord2⟩
    cases a with
    | zero =>
      simp only [List.getElem?_cons_zero, Option.some.injEq] at ha
      subst ha
      cases b with
      | zero => omega
      | succ b =>
        simp only [List.getElem?_cons_succ] at hb
        have := seg_start_lb xs k hord2 (fun se hse => hlen se (by simp [hse]))
          x.2 (fun se hse => hx se hse) b seb hb
        simpa using this
    | succ a =>
      cases b with
      | zero => omega
      | succ b =>
        simp only [List.getElem?_cons_succ] at ha hb
        have := ih hord2 (fun se hse => hlen se (by simp [hse])) a b sea seb
          (by omega) ha hb
        simpa [Nat.succ_sub_succ] using this

theorem seg_start_mul_le (l : List (ℕ × ℕ)) (k : ℕ) (h : ValidSegs l k) :
    ∀ j se, l[j]? = some se → j * k ≤ se.1 := by
  intro j se hj
  have h1 := seg_start_lb l k h.1 h.2 0 (fun _ _ => Nat.zero_le _) j se hj
  have h2 : j * k ≤ j * (k + 1) := mul_le_mul_left' (by omega) j
  linarith

theorem getD_of_getElem? {l : List (ℕ × ℕ)} {j : ℕ} {se : ℕ × ℕ}
    (h : l[j]? = some se) : l.getD j (0, 0) = se := by
  simp [List.getD_eq_getElem?_getD, h]

theorem lt_length_of_getElem? {l : List (ℕ × ℕ)} {j : ℕ} {se : ℕ × ℕ}
    (h : l[j]? = some se) : j < l.length := by
  by_contra hge
  rw [List.getElem?_eq_none (by omega)] at h
  exact Option.noConfusion h

theorem seg_mem_of_getElem? {l : List (ℕ × ℕ)} {j : ℕ} {se : ℕ × ℕ}
    (h : l[j]? = some se) : se ∈ l := by
  have hlt := lt_length_of_getElem? h
  rw [List.getElem?_eq_getElem hlt, Option.some.injEq] at h
  exact h ▸ List.getElem_mem hlt

/-! ### Fold lemmas for the autoregressive per-segment loop -/

theorem lag_block_unique {p c i a : ℕ} (h : i * p ≤ c ∧ c < i * p + p)
    (h2 : a * p ≤ c ∧ c < a * p + p) : a = i := by
  rcases Nat.lt_trichotomy a i with hlt | heq | hgt
  · exfalso
    have hle : a * p + p ≤ i * p := by
      calc a * p + p = (a + 1) * p := by ring
        _ ≤ i * p := mul_le_mul_right' hlt p
    linarith [h.1, h2.2]
  · exact heq
  · exfalso
    have hle : i * p + p ≤ a * p := by
      calc i * p + p = (i + 1) * p := by ring
        _ ≤ a * p := mul_le_mul_right' hgt p
    linarith [h.2, h2.1]

theorem foldXlag_entry_of_not_row (data : Mat) (k j s e p r c : ℕ)
    (hrow : ¬ (s ≤ r + j * k ∧ r + j * k + k < e)) :
    ∀ (lst : List ℕ) (X : Mat),
      (lst.foldl (arWriteXlag data k j s e p) X).entry r c = X.entry r c := by
  intro lst
  induction lst with
  | nil => intro X; rfl
  | cons a l ih =>
    intro X
    rw [List.foldl_cons, ih]
    simp only [arWriteXlag]
    exact if_neg (fun h => hrow h.1)

theorem foldXlag_entry_of_not_col (data : Mat) (k j s e p r c : ℕ) :
    ∀ (lst : List ℕ) (X : Mat),
      (∀ i ∈ lst, ¬ (i * p ≤ c ∧ c < i * p + p)) →
      (lst.foldl (arWriteXlag data k j s e p) X).entry r c = X.entry r c := by
  intro lst
  induction lst with
  | nil => intro X _; rfl
  | cons a l ih =>
    intro X hcol
    rw [List.foldl_cons, ih _ (fun i hi => hcol i (by simp [hi]))]
    simp only [arWriteXlag]
    exact if_neg (fun h => hcol a (by simp) h.2)

theorem foldXlag_entry_hit (data : Mat) (k j s e p r c i : ℕ)
    (hrow : s ≤ r + j * k ∧ r + j * k + k < e)
    (hcol : i * p ≤ c ∧ c < i * p + p) :
    ∀ (lst : List ℕ) (X : Mat), i ∈ lst →
      (lst.foldl (arWriteXlag data k j s e p) X).entry r c
        = data.entry (r + j * k + (k - (i + 1))) (c - i * p) := by
  intro lst
  induction lst with
  | nil => intro X h; simp at h
  | cons a l ih =>
    intro X hmem
    rw [List.foldl_cons]
    by_cases hil : i ∈ l
    · exact ih _ hil
    · have hai : a = i := by
        rcases List.mem_cons.mp hmem with h | h
        · exact h.symm
        · exact absurd h hil
      subst hai
      rw [foldXlag_entry_of_not_col data k j s e p r c l _
        (fun a2 ha2 hc2 => hil (lag_block_unique hcol hc2 ▸ ha2))]
      simp only [arWriteXlag]
      exact if_pos ⟨hrow, hcol⟩

/-- Row condition of segment `a` at output row `r` (membership of `r` in the
`ind_2` range of preproc.py 368). -/
def arRowCond (indices : List (ℕ × ℕ)) (k a r : ℕ) : Prop :=
  (indices.getD a (0, 0)).1 ≤ r + a * k ∧ r + a * k + k < (indices.getD a (0, 0)).2

theorem foldSeg_Y_untouched (data : Mat) (indices : List (ℕ × ℕ)) (k p r c : ℕ) :
    ∀ (lst : List ℕ) (acc : Mat × Mat × List (ℕ × ℕ)),
      (∀ a ∈ lst, ¬ arRowCond indices k a r) →
      ((lst.foldl (arSegment data indices k p) acc).2.1.entry r c
        = acc.2.1.entry r c) := by
  intro lst
  induction lst with
  | nil => intro acc _; rfl
  | cons a l ih =>
    intro acc hno
    rw [List.foldl_cons, ih _ (fun a2 ha2 => hno a2 (by simp [ha2]))]
    simp only [arSegment, arWriteY]
    exact if_neg (hno a (by simp))

theorem foldSeg_Y_hit (data : Mat) (indices : List (ℕ × ℕ)) (k p r c j : ℕ)
    (hrow : arRowCond indices k j r) :
    ∀ (lst : List ℕ) (acc : Mat × Mat × List (ℕ × ℕ)), j ∈ lst →
      (∀ a ∈ lst, arRowCond indices k a r → a = j) →
      ((lst.foldl (arSegment data indices k p) acc).2.1.entry r c
        = data.entry (r + j * k + k) c) := by
  intro lst
  induction lst with
  | nil => intro acc h _; simp at h
  | cons a l ih =>
    intro acc hmem huniq
    rw [List.foldl_cons]
    by_cases hjl : j ∈ l
    · exact ih _ hjl (fun a2 ha2 h2 => huniq a2 (by simp [ha2]) h2)
    · have haj : a = j := by
        rcases List.mem_cons.mp hmem with h | h
        · exact h.symm
        · exact absurd h hjl
      subst haj
      rw [foldSeg_Y_untouched data indices k p r c l _
        (fun a2 ha2 h2 => hjl (huniq a2 (by simp [ha2]) h2 ▸ ha2))]
      simp only [arSegment, arWriteY]
      exact if_pos hrow

theorem foldSeg_X_untouched (data : Mat) (indices : List (ℕ × ℕ)) (k p r c : ℕ) :
    ∀ (lst : List ℕ) (acc : Mat × Mat × List (ℕ × ℕ)),
      (∀ a ∈ lst, ¬ arRowCond indices k a r) →
      ((lst.foldl (arSegment data indices k p) acc).1.entry r c
        = acc.1.entry r c) := by
  intro lst
  induction lst with
  | nil => intro acc _; rfl
  | cons a l ih =>
    intro acc hno
    rw [List.foldl_cons, ih _ (fun a2 ha2 => hno a2 (by simp [ha2]))]
    simp only [arSegment]
    exact foldXlag_entry_of_not_row data k a _ _ p r c (hno a (by simp)) _ _

theorem foldSeg_X_hit (data : Mat) (indices : List (ℕ × ℕ)) (k p r c j i : ℕ)
    (hrow : arRowCond indices k j r)
    (hcol : i * p ≤ c ∧ c < i * p + p) (hik : i < k) :
    ∀ (lst : List ℕ) (acc : Mat × Mat × List (ℕ × ℕ)), j ∈ lst →
      (∀ a ∈ lst, arRowCond indices k a r → a = j) →
      ((lst.foldl (arSegment data indices k p) acc).1.entry r c
        = data.entry (r + j * k + (k - (i + 1))) (c - i * p)) := by
  intro lst
  induction lst with
  | nil => intro acc h _; simp at h
  | cons a l ih =>
    intro acc hmem huniq
    rw [List.foldl_cons]
    by_cases hjl : j ∈ l
    · exact ih _ hjl (fun a2 ha2 h2 => huniq a2 (by simp [ha2]) h2)
    · have haj : a = j := by
        rcases List.mem_cons.mp hmem with h | h
        · exact h.symm
        · exact absurd h hjl
      subst haj
      rw [foldSeg_X_untouched data indices k p r c l _
        (fun a2 ha2 h2 => hjl (huniq a2 (by simp [ha2]) h2 ▸ ha2))]
      simp only [arSegment]
      exact foldXlag_entry_hit data k _ _ _ p r c i hrow hcol _ _
        (List.mem_range.mpr hik)

/-- Under `ValidSegs`, the only segment whose `ind_2` range contains the
output row `s − j·k + m` (for `m` below segment `j`'s new length) is `j`
itself: the per-segment writes are disjoint. -/
theorem seg_row_unique (indices : List (ℕ × ℕ)) (k : ℕ) (hval : ValidSegs indices k)
    (j s e m : ℕ) (hj : indices[j]? = some (s, e)) (hm : m < e - s - k) :
    ∀ a, arRowCond indices k a (s - j * k + m) → a = j := by
  intro a hcond
  have hsj : j * k ≤ s := seg_start_mul_le indices k hval j (s, e) hj
  have hlenj : s + k < e := hval.2 (s, e) (seg_mem_of_getElem? hj)
  rcases Nat.lt_trichotomy a j with hlt | heq | hgt
  · exfalso
    obtain ⟨sa, ea, hga⟩ : ∃ sa ea, indices[a]? = some (sa, ea) := by
      have haN : a < indices.length := Nat.lt_trans hlt (lt_length_of_getElem? hj)
      refine ⟨(indices[a]).1, (indices[a]).2, ?_⟩
      rw [List.getElem?_eq_getElem haN]
    rw [arRowCond, getD_of_getElem? hga] at hcond
    obtain ⟨d, rfl⟩ : ∃ d, j = a + 1 + d := ⟨j - a - 1, by omega⟩
    have hchain := seg_chain_gap indices k hval.1 hval.2 a (a + 1 + d) (sa, ea) (s, e)
      (by omega) hga hj
    have e2 : (a + 1 + d - a - 1) * (k + 1) = d * k + d := by
      have : a + 1 + d - a - 1 = d := by omega
      rw [this]; ring
    rw [e2] at hchain
    have e1 : (a + 1 + d) * k = a * k + k + d * k := by ring
    have hu : s - (a + 1 + d) * k + (a + 1 + d) * k = s := Nat.sub_add_cancel hsj
    rw [e1] at hu
    -- hcond.2 : (s - (a+1+d)*k + m) + a*k + k < ea ;  hchain : ea + d*k + d ≤ s
    have hc2 := hcond.2
    rw [e1] at hc2
    linarith
  · exact heq
  · exfalso
    obtain ⟨sa, ea, hga⟩ : ∃ sa ea, indices[a]? = some (sa, ea) := by
      rcases h2 : indices[a]? with _ | se2
      · rw [arRowCond, List.getD_eq_getElem?_getD, h2] at hcond
        exact absurd hcond.2 (Nat.not_lt_zero _)
      · exact ⟨se2.1, se2.2, by simp [h2]⟩
    rw [arRowCond, getD_of_getElem? hga] at hcond
    obtain ⟨d, rfl⟩ : ∃ d, a = j + 1 + d := ⟨a - j - 1, by omega⟩
    have hchain := seg_chain_gap indices k hval.1 hval.2 j (j + 1 + d) (s, e) (sa, ea)
      (by omega) hj hga
    have e2 : (j + 1 + d - j - 1) * (k + 1) = d * k + d := by
      have : j + 1 + d - j - 1 = d := by omega
      rw [this]; ring
    rw [e2] at hchain
    have e1 : (j + 1 + d) * k = j * k + k + d * k := by ring
    have hu : s - j * k + j * k = s := Nat.sub_add_cancel hsj
    have hme : m + s + k < e := by omega
    -- hcond.1 : sa ≤ (s - j*k + m) + (j+1+d)*k ;  hchain : e + (d*k + d) ≤ sa
    have hc1 := hcond.1
    rw [e1] at hc1
    linarith

/-- The initial accumulator of the per-segment loop (preproc.py 362-364). -/
def arInit (data : Mat) (indices : List (ℕ × ℕ)) (k : ℕ) : Mat × Mat × List (ℕ × ℕ) :=
  (Mat.zeros (data.rows - indices.length * k) (data.cols * k),
   Mat.zeros (data.rows - indices.length * k) data.cols, [])

/-- The state (X, Y, indices_new) after the whole per-segment loop. -/
def arFold (data : Mat) (indices : List (ℕ × ℕ)) (k : ℕ) : Mat × Mat × List (ℕ × ℕ) :=
  (List.range indices.length).foldl (arSegment data indices k data.cols)
    (arInit data indices k)

theorem build_ar_none_eq (data : Mat) (indices : List (ℕ × ℕ)) (k : ℕ)
    (hk0 : ¬ k = 0)
    (hall : (indices.all fun se => decide (se.1 + k < se.2)) = true) :
    build_data_autoregressive data indices k none false =
      some ⟨(arFold data indices k).1, (arFold data indices k).2.1,
        (arFold data indices k).2.2, none, false⟩ := by
  unfold build_data_autoregressive
  rw [if_neg hk0, if_pos hall]
  rfl

/-- C5: (a) concrete scenario — a 100×3 array with SegmentIndex
`[[0,50],[50,100]]`, order 2, no connectivity and centering enabled yields
`X : 96×6`, `Y : 96×3` and new SegmentIndex `[[0,48],[48,96]]`;
(b) in general, for order `k ≥ 1` and a valid SegmentIndex, each segment
`[s, e)` yields `e − s − k` rows, and at output row `s − j·k + m` (aligned
to source sample `t = s + k + m`) the predictor block for lag `i`
(columns `i·p .. i·p + p − 1`, lag-major) holds the source sample at
`t − (i+1)` while `Y` holds the source sample `t` (built uncentered). -/
theorem c5_autoregressive_scenario_and_layout :
    (∀ f : ℕ → ℕ → ℚ, ∃ res,
      build_data_autoregressive ⟨100, 3, f⟩ [(0, 50), (50, 100)] 2 none true
        = some res ∧
      res.X.rows = 96 ∧ res.X.cols = 6 ∧ res.Y.rows = 96 ∧ res.Y.cols = 3 ∧
      res.indicesNew = [(0, 48), (48, 96)]) ∧
    (∀ (data : Mat) (indices : List (ℕ × ℕ)) (k : ℕ) (res : ARResult)
      (j s e m i ch : ℕ),
      1 ≤ k → ValidSegs indices k → indices[j]? = some (s, e) →
      build_data_autoregressive data indices k none false = some res →
      m < e - s - k → i < k → ch < data.cols →
      res.X.entry (s - j * k + m) (i * data.cols + ch)
          = data.entry (s + k + m - (i + 1)) ch ∧
      res.Y.entry (s - j * k + m) ch = data.entry (s + k + m) ch) := by
  constructor
  · intro f
    exact ⟨_, rfl, rfl, rfl, rfl, rfl, rfl⟩
  · intro data indices k res j s e m i ch hk hval hj hbuild hm hi hch
    have hk0 : ¬ k = 0 := by omega
    have hall : (indices.all fun se => decide (se.1 + k < se.2)) = true := by
      rw [List.all_eq_true]
      intro se hse
      exact decide_eq_true (hval.2 se hse)
    rw [build_ar_none_eq data indices k hk0 hall, Option.some.injEq] at hbuild
    subst hbuild
    have hsj : j * k ≤ s := seg_start_mul_le indices k hval j (s, e) hj
    have hlenj : s + k < e := hval.2 _ (seg_mem_of_getElem? hj)
    have hkey : s - j * k + m + j * k = s + m := by
      rw [Nat.add_right_comm, Nat.sub_add_cancel hsj]
    have hrow : arRowCond indices k j (s - j * k + m) := by
      rw [arRowCond, getD_of_getElem? hj]
      rw [hkey]
      exact ⟨by omega, by omega⟩
    have hmemj : j ∈ List.range indices.length :=
      List.mem_range.mpr (lt_length_of_getElem? hj)
    have huniq : ∀ a ∈ List.range indices.length,
        arRowCond indices k a (s - j * k + m) → a = j :=
      fun a _ hc => seg_row_unique indices k hval j s e m hj hm a hc
    constructor
    · have hx := foldSeg_X_hit data indices k data.cols (s - j * k + m)
        (i * data.cols + ch) j i hrow
        ⟨Nat.le_add_right _ _, Nat.add_lt_add_left hch _⟩ hi
        (List.range indices.length) (arInit data indices k) hmemj huniq
      show (arFold data indices k).1.entry (s - j * k + m) (i * data.cols + ch)
        = data.entry (s + k + m - (i + 1)) ch
      rw [arFold, hx]
      have e3 : s - j * k + m + j * k + (k - (i + 1)) = s + k + m - (i + 1) := by
        rw [hkey]; omega
      have e4 : i * data.cols + ch - i * data.cols = ch := Nat.add_sub_cancel_left _ _
      rw [e3, e4]
    · have hy := foldSeg_Y_hit data indices k data.cols (s - j * k + m) ch j hrow
        (List.range indices.length) (arInit data indices k) hmemj huniq
      show (arFold data indices k).2.1.entry (s - j * k + m) ch
        = data.entry (s + k + m) ch
      rw [arFold, hy]
      have e5 : s - j * k + m + j * k + k = s + k + m := by rw [hkey]; omega
      rw [e5]

/-- C5 witness: a 4×1 ramp with one segment `[0,4)` and order 1 — output row
0 aligns to source sample 1; `X` holds sample 0 and `Y` holds sample 1. -/
theorem c5_autoregressive_scenario_and_layout_witness :
    ∃ res, build_data_autoregressive ⟨4, 1, fun r _ => (r : ℚ)⟩ [(0, 4)] 1
        none false = some res ∧
      res.X.entry 0 0 = 0 ∧ res.Y.entry 0 0 = 1 := by
  have hval : ValidSegs [(0, 4)] 1 := by
    refine ⟨List.pairwise_singleton _ _, ?_⟩
    intro se hse
    rw [List.mem_singleton] at hse
    subst hse
    omega
  refine ⟨_, rfl, ?_, ?_⟩
  · have h := (c5_autoregressive_scenario_and_layout.2 ⟨4, 1, fun r _ => (r : ℚ)⟩
      [(0, 4)] 1 _ 0 0 4 0 0 0 (by omega) hval rfl rfl
      (by omega) (by omega) (by decide)).1
    simpa using h
  · have h := (c5_autoregressive_scenario_and_layout.2 ⟨4, 1, fun r _ => (r : ℚ)⟩
      [(0, 4)] 1 _ 0 0 4 0 0 0 (by omega) hval rfl rfl
      (by omega) (by omega) (by decide)).2
    simpa using h

/-- C6: the autoregressive builder at order 0 is a no-op for every input: it
returns the input data unchanged as `Y`, the empty 1-D array as `X`, the
SegmentIndex and connectivity unchanged, and raises nothing — it only emits
the non-fatal advisory (`warned = true`). -/
theorem c6_autoregressive_order_zero_noop (data : Mat) (indices : List (ℕ × ℕ))
    (conn : Option Mat) (center_data : Bool) :
    build_data_autoregressive data indices 0 conn center_data =
      some ⟨Mat.empty1d, data, indices, conn, true⟩ := rfl

/-! ### PCA/ICA sign convention (preproc.py 60-65 and 99-104) -/

/-- `np.max` of a column given as a list (the source never calls it on an
empty column; 0 is the junk default). -/
def listMaxQ (col : List ℚ) : ℚ :=
  match col with
  | [] => 0
  | x :: xs => xs.foldl max x

/-- preproc.py 62: `np.where(np.abs(X[:,j]) == np.abs(np.max(X[:,j])))[0][0]`
— the first row whose absolute value equals the absolute value of the
column's *maximum* (note: `np.abs(np.max(...))`, not `np.max(np.abs(...))`). -/
def signFixIndex (col : List ℚ) : ℕ :=
  ((List.range col.length).filter
      (fun r => decide (|col.getD r 0| = |listMaxQ col|))).headD 0

/-- preproc.py 63: `if X[jj,j] < 0: X[:,j] *= -1`. -/
def applySignFix (col : List ℚ) : List ℚ :=
  if col.getD (signFixIndex col) 0 < 0 then col.map (fun x => -x) else col

/-- Modelled from the spec wording of the sign convention: the first sample
index whose absolute value is maximal over the column (the claim's
reading of the located index). -/
def specArgmaxAbsIndex (col : List ℚ) : ℕ :=
  ((List.range col.length).filter
      (fun r => decide (∀ r2 ∈ List.range col.length,
        |col.getD r2 0| ≤ |col.getD r 0|))).headD 0

/-- C4 counterexample: on the column `[-5, 3]` the sample of maximal absolute
value is `-5` at index 0, yet the code compares against `|np.max| = 3`,
locates index 1 (value `3 ≥ 0`) and does not flip — so the convention leaves
the column negative at the maximal-absolute-value index, refuting the claim
that every retained column is nonnegative there. -/
theorem c4_sign_convention_counterexample :
    (applySignFix [-5, 3]).getD (specArgmaxAbsIndex [-5, 3]) 0 < 0 ∧
    applySignFix [-5, 3] = [-5, 3] := by
  constructor
  · decide
  · decide

/-- C4 amended: the code locates the first index whose absolute value equals
the absolute value of the column's maximum (`signFixIndex`), and after the
convention the column is nonnegative at *that* index; the column is negated
iff the entry at that index was negative, and left untouched otherwise. -/
theorem c4_sign_fix_nonneg_at_code_index (col : List ℚ) :
    0 ≤ (applySignFix col).getD (signFixIndex col) 0 ∧
    (col.getD (signFixIndex col) 0 < 0 →
      applySignFix col = col.map (fun x => -x)) ∧
    (0 ≤ col.getD (signFixIndex col) 0 → applySignFix col = col) := by
  refine ⟨?_, ?_, ?_⟩
  · by_cases hneg : col.getD (signFixIndex col) 0 < 0
    · rw [applySignFix, if_pos hneg]
      have hlt : signFixIndex col < col.length := by
        by_contra hge
        rw [List.getD_eq_default _ _ (by omega)] at hneg
        exact absurd hneg (lt_irrefl 0)
      have hv : col.getD (signFixIndex col) 0 = col.get ⟨signFixIndex col, hlt⟩ := by
        rw [List.getD_eq_getElem?_getD, List.getElem?_eq_getElem hlt]
        rfl
      have hmapv : (col.map (fun x => -x)).getD (signFixIndex col) 0
          = -(col.get ⟨signFixIndex col, hlt⟩) := by
        rw [List.getD_eq_getElem?_getD, List.getElem?_map,
          List.getElem?_eq_getElem hlt]
        rfl
      rw [hmapv]
      rw [hv] at hneg
      linarith
    · rw [applySignFix, if_neg hneg]
      exact le_of_not_lt hneg
  · intro h
    rw [applySignFix, if_pos h]
  · intro h
    rw [applySignFix, if_neg (not_lt.mpr h)]

/-- C4 amended-claim witness on the column `[1, -2]`: the code's index is 0
(`|np.max| = 1` first matches row 0), the value there is `1 ≥ 0`, so the
column is untouched and nonnegative at the located index. -/
theorem c4_sign_fix_nonneg_at_code_index_witness :
    0 ≤ (applySignFix [1, -2]).getD (signFixIndex [1, -2]) 0 ∧
    applySignFix [1, -2] = [1, -2] := by
  refine ⟨(c4_sign_fix_nonneg_at_code_index [1, -2]).1,
    (c4_sign_fix_nonneg_at_code_index [1, -2]).2.2 ?_⟩
  decide

/-! ### `apply_pca` (preproc.py 19-65) with the caller's array state -/

/-- The admissible forms of the component-count argument `d`. -/
inductive PCAArg where
  | mat (d : Mat) : PCAArg
  | int (n : ℕ) : PCAArg
  | frac (q : ℚ) : PCAArg

/-- A column as a list (used by the sign-convention loop). -/
def Mat.col (M : Mat) (j : ℕ) : List ℚ :=
  (List.range M.rows).map (fun r => M.entry r j)

/-- preproc.py 61-63: the sign-convention loop applied to the first `d`
columns of `M`. -/
def signConventionCols (M : Mat) (d : ℕ) : Mat :=
  ⟨M.rows, M.cols, fun r c =>
    if c < d then (applySignFix (M.col c)).getD r 0 else M.entry r c⟩

/-- `M /= np.std(M, axis=0)` with the square root inside `np.std` supplied
as the abstract primitive `sqrtQ` applied to the population variance. -/
def divColStd (sqrtQ : ℚ → ℚ) (M : Mat) : Mat :=
  ⟨M.rows, M.cols, fun r c => M.entry r c / sqrtQ (M.colVar c)⟩

/-- `A @ B`. -/
def Mat.matmul (A B : Mat) : Mat :=
  ⟨A.rows, B.cols, fun r c => ∑ t in Finset.range A.cols, A.entry r t * B.entry t c⟩

/-- preproc.py 19-65 `apply_pca`, modelled together with the caller's array
state: the result is `(caller's X after the call, returned array)`.
In the ndarray branch (40-45) the source executes `X -= np.mean(X, axis=0)`
— an in-place update on the caller's array — before rebinding `X` to the
fresh products `X @ d` and the whitening division.  In the int and fraction
branches `pcamodel.fit` reads `X` and `pcamodel.transform` allocates fresh
output, so the caller's array is untouched.  `pcaT M n` abstracts
`PCA(n_components=n).fit(M).transform(M)` and `ncompOf M q` abstracts the
cumulative-explained-variance component count of the fraction branch. -/
def apply_pca_state (sqrtQ : ℚ → ℚ) (pcaT : Mat → ℕ → Mat)
    (ncompOf : Mat → ℚ → ℕ) (X : Mat) (d : PCAArg) : Mat × Mat :=
  match d with
  | .mat dm =>
    let X1 := X.centerCols
    let X2 := X1.matmul dm
    let X3 := divColStd sqrtQ X2
    (X1, X3)
  | .int n => (X, signConventionCols (pcaT X n) n)
  | .frac q =>
    let ncomp := ncompOf X q
    let F := pcaT X X.cols
    let Xt : Mat := ⟨F.rows, ncomp, F.entry⟩
    (X, signConventionCols Xt ncomp)

/-- The caller's 2×1 array for the C9 counterexample (nonzero column mean). -/
def c9X : Mat := ⟨2, 1, fun r _ => if r = 0 then 1 else 0⟩

/-- The 1×1 precomputed projection matrix for the C9 counterexample. -/
def c9D : Mat := ⟨1, 1, fun _ _ => 1⟩

/-- C9 counterexample: `apply_pca` called with a precomputed projection
matrix executes `X -= np.mean(X, axis=0)` in place, so the caller's array is
mutated: entry (0,0) changes from 1 to 1/2 on this input, refuting the claim
that every operation leaves caller-owned arrays unchanged for every
admissible component-count argument. -/
theorem c9_apply_pca_matrix_mutates_caller :
    ((apply_pca_state (fun x => x) (fun M _ => M) (fun _ _ => 1)
        c9X (.mat c9D)).1).entry 0 0 ≠ c9X.entry 0 0 := by
  norm_num [apply_pca_state, Mat.centerCols, Mat.colMean, Mat.colSum, c9X,
    Finset.sum_range_succ, Finset.sum_range_zero]

/-- C9 amended: all modelled operations allocate fresh outputs except
`apply_pca` with a precomputed projection matrix, which centers the caller's
array in place: the caller's entry survives unchanged iff the corresponding
column mean is zero, while the int- and fraction-`d` branches leave the
caller's array untouched. -/
theorem c9_apply_pca_caller_state (sqrtQ : ℚ → ℚ) (pcaT : Mat → ℕ → Mat)
    (ncompOf : Mat → ℚ → ℕ) (X dm : Mat) (n : ℕ) (q : ℚ) (r c : ℕ) :
    ((apply_pca_state sqrtQ pcaT ncompOf X (.mat dm)).1.entry r c = X.entry r c
      ↔ X.colMean c = 0) ∧
    (apply_pca_state sqrtQ pcaT ncompOf X (.int n)).1 = X ∧
    (apply_pca_state sqrtQ pcaT ncompOf X (.frac q)).1 = X := by
  refine ⟨?_, rfl, rfl⟩
  simp [apply_pca_state, Mat.centerCols, sub_eq_self]

/-! ### Power/phase extraction (preproc.py 276-283) -/

/-- `M[s:e, :p]`: the segment rows `[s, e)` of the first `p` columns, with
out-of-bounds junk normalised to 0 so that the extracted array is determined
by its mathematical content. -/
def Mat.seg (M : Mat) (s e p : ℕ) : Mat :=
  ⟨e - s, p, fun r c => if r < e - s ∧ c < p then M.entry (s + r) c else 0⟩

/-- One iteration of the loop at preproc.py 278-282 on the concatenated
array: compute the analytic signal of the segment's first `p` columns and
overwrite the amplitude block (`data[t,:p]`) and the phase block
(`data[t,p:]`) of those rows.  `hilb` abstracts `signal.hilbert(·, axis=0)`
(entries in a type `α` standing for ℂ), `aAmp` abstracts `np.abs` on one
complex entry, and `aPhase` abstracts `np.unwrap(np.angle(·))` applied down
one column. -/
def ppSegment {α : Type} (hilb : Mat → ℕ → ℕ → α) (aAmp : α → ℚ)
    (aPhase : (ℕ → α) → ℕ → ℚ) (indices : List (ℕ × ℕ)) (p : ℕ)
    (M : Mat) (j : ℕ) : Mat :=
  let s := (indices.getD j (0, 0)).1
  let e := (indices.getD j (0, 0)).2
  let A := hilb (M.seg s e p)
  { M with entry := fun r c =>
      if s ≤ r ∧ r < e then
        if c < p then aAmp (A (r - s) c)
        else aPhase (fun t => A t (c - p)) (r - s)
      else M.entry r c }

/-- preproc.py 276-283: when both `onpower` and `onphase` are requested, the
array is duplicated along columns (`np.concatenate((data,data),1)`) and the
per-segment loop replaces the first block by the amplitude and the second
block by the unwrapped phase of the segment's analytic signal. -/
def powerPhaseStage {α : Type} (hilb : Mat → ℕ → ℕ → α) (aAmp : α → ℚ)
    (aPhase : (ℕ → α) → ℕ → ℚ) (data : Mat) (indices : List (ℕ × ℕ)) : Mat :=
  (List.range indices.length).foldl
    (ppSegment hilb aAmp aPhase indices data.cols) (data.hconcat data)

theorem ppSegment_cols {α : Type} (hilb : Mat → ℕ → ℕ → α) (aAmp : α → ℚ)
    (aPhase : (ℕ → α) → ℕ → ℚ) (indices : List (ℕ × ℕ)) (p : ℕ)
    (M : Mat) (j : ℕ) :
    (ppSegment hilb aAmp aPhase indices p M j).cols = M.cols := rfl

theorem ppFold_cols {α : Type} (hilb : Mat → ℕ → ℕ → α) (aAmp : α → ℚ)
    (aPhase : (ℕ → α) → ℕ → ℚ) (indices : List (ℕ × ℕ)) (p : ℕ) :
    ∀ (lst : List ℕ) (M : Mat),
      (lst.foldl (ppSegment hilb aAmp aPhase indices p) M).cols = M.cols := by
  intro lst
  induction lst with
  | nil => intro M; rfl
  | cons a l ih =>
    intro M
    rw [List.foldl_cons, ih]
    rfl

theorem ppFold_untouched {α : Type} (hilb : Mat → ℕ → ℕ → α) (aAmp : α → ℚ)
    (aPhase : (ℕ → α) → ℕ → ℚ) (indices : List (ℕ × ℕ)) (p r c : ℕ) :
    ∀ (lst : List ℕ) (M : Mat),
      (∀ a ∈ lst, ¬ ((indices.getD a (0, 0)).1 ≤ r ∧ r < (indices.getD a (0, 0)).2)) →
      ((lst.foldl (ppSegment hilb aAmp aPhase indices p) M).entry r c = M.entry r c) := by
  intro lst
  induction lst with
  | nil => intro M _; rfl
  | cons a l ih =>
    intro M hno
    rw [List.foldl_cons, ih _ (fun a2 ha2 => hno a2 (by simp [ha2]))]
    simp only [ppSegment]
    exact if_neg (hno a (by simp))

/-- A disjoint segment write does not change the extracted submatrix of the
segment `[s, e)`. -/
theorem ppSegment_seg_eq {α : Type} (hilb : Mat → ℕ → ℕ → α) (aAmp : α → ℚ)
    (aPhase : (ℕ → α) → ℕ → ℚ) (indices : List (ℕ × ℕ)) (p : ℕ)
    (M : Mat) (a s e : ℕ)
    (hdisj : (indices.getD a (0, 0)).2 ≤ s ∨ e ≤ (indices.getD a (0, 0)).1) :
    (ppSegment hilb aAmp aPhase indices p M a).seg s e p = M.seg s e p := by
  simp only [Mat.seg, ppSegment]
  congr 1
  funext r c
  by_cases hin : r < e - s ∧ c < p
  · rw [if_pos hin, if_pos hin, if_neg]
    intro hcontra
    rcases hdisj with h | h
    · omega
    · omega
  · rw [if_neg hin, if_neg hin]

/-- The duplication step leaves the first-block submatrix of any segment
equal to the corresponding submatrix of the original data. -/
theorem hconcat_seg (data : Mat) (s e : ℕ) :
    (data.hconcat data).seg s e data.cols = data.seg s e data.cols := by
  simp only [Mat.seg, Mat.hconcat]
  congr 1
  funext r c
  by_cases hin : r < e - s ∧ c < data.cols
  · rw [if_pos hin, if_pos hin, if_pos hin.2]
  · rw [if_neg hin, if_neg hin]

theorem ppFold_hit {α : Type} (hilb : Mat → ℕ → ℕ → α) (aAmp : α → ℚ)
    (aPhase : (ℕ → α) → ℕ → ℚ) (indices : List (ℕ × ℕ)) (p : ℕ)
    (data : Mat) (j s e r c : ℕ)
    (hj : indices.getD j (0, 0) = (s, e)) (hr : s ≤ r ∧ r < e) :
    ∀ (lst : List ℕ) (M : Mat), lst.Nodup → j ∈ lst →
      (∀ a ∈ lst, a ≠ j →
        (indices.getD a (0, 0)).2 ≤ s ∨ e ≤ (indices.getD a (0, 0)).1) →
      M.seg s e p = data.seg s e p →
      ((lst.foldl (ppSegment hilb aAmp aPhase indices p) M).entry r c
        = if c < p then aAmp (hilb (data.seg s e p) (r - s) c)
          else aPhase (fun t => hilb (data.seg s e p) t (c - p)) (r - s)) := by
  intro lst
  induction lst with
  | nil => intro M _ h _ _; simp at h
  | cons a l ih =>
    intro M hnodup hmem huniq hseg
    rcases List.nodup_cons.mp hnodup with ⟨hanin, hnodup2⟩
    rw [List.foldl_cons]
    by_cases hjl : j ∈ l
    · have haj : a ≠ j := fun hEq => hanin (hEq ▸ hjl)
      refine ih _ hnodup2 hjl (fun a2 ha2 h2 => huniq a2 (by simp [ha2]) h2) ?_
      rw [ppSegment_seg_eq hilb aAmp aPhase indices p M a s e (huniq a (by simp) haj)]
      exact hseg
    · have haj : a = j := by
        rcases List.mem_cons.mp hmem with h | h
        · exact h.symm
        · exact absurd h hjl
      subst haj
      rw [ppFold_untouched hilb aAmp aPhase indices p r c l _ ?notouch]
      case notouch =>
        intro a2 ha2
        have hne : a2 ≠ a := fun hEq => hjl (hEq ▸ ha2)
        rcases huniq a2 (by simp [ha2]) hne with h | h
        · intro hcontra
          exact absurd (lt_of_lt_of_le hcontra.2 h) (not_lt.mpr hr.1)
        · intro hcontra
          exact absurd (lt_of_lt_of_le hr.2 (le_trans h hcontra.1)) (lt_irrefl r)
      simp only [ppSegment, hj, hseg]
      rw [if_pos hr]

/-- C7: when both amplitude and phase extraction are requested, the output
channel count doubles, and for every row `r` of segment `j = [s, e)` and
original channel `c`, column `c` holds the amplitude and column `p + c` the
unwrapped phase of the same analytic (Hilbert) signal of the segment of the
pre-duplication data. -/
theorem c7_power_phase_blocks {α : Type} (hilb : Mat → ℕ → ℕ → α) (aAmp : α → ℚ)
    (aPhase : (ℕ → α) → ℕ → ℚ) (data : Mat) (indices : List (ℕ × ℕ))
    (j s e r c : ℕ)
    (hord : indices.Pairwise (fun a b => a.2 ≤ b.1))
    (hj : indices[j]? = some (s, e))
    (hr : s ≤ r) (hre : r < e) (hc : c < data.cols) :
    (powerPhaseStage hilb aAmp aPhase data indices).cols = 2 * data.cols ∧
    (powerPhaseStage hilb aAmp aPhase data indices).entry r c
      = aAmp (hilb (data.seg s e data.cols) (r - s) c) ∧
    (powerPhaseStage hilb aAmp aPhase data indices).entry r (data.cols + c)
      = aPhase (fun t => hilb (data.seg s e data.cols) t c) (r - s) := by
  have hdisj : ∀ a ∈ List.range indices.length, a ≠ j →
      (indices.getD a (0, 0)).2 ≤ s ∨ e ≤ (indices.getD a (0, 0)).1 := by
    intro a ha hne
    have haN : a < indices.length := List.mem_range.mp ha
    have hjN : j < indices.length := lt_length_of_getElem? hj
    have hga : indices.getD a (0, 0) = indices[a] := by
      rw [List.getD_eq_getElem?_getD, List.getElem?_eq_getElem haN]
      rfl
    have hgj : indices[j] = (s, e) := by
      have := hj
      rw [List.getElem?_eq_getElem hjN, Option.some.injEq] at this
      exact this
    rw [hga]
    rcases Nat.lt_or_ge a j with hlt | hge
    · left
      have := List.pairwise_iff_getElem.mp hord a j haN hjN hlt
      rw [hgj] at this
      exact this
    · right
      have hgt : j < a := by omega
      have := List.pairwise_iff_getElem.mp hord j a hjN haN hgt
      rw [hgj] at this
      exact this
  have hmemj : j ∈ List.range indices.length :=
    List.mem_range.mpr (lt_length_of_getElem? hj)
  refine ⟨?_, ?_, ?_⟩
  · show ((List.range indices.length).foldl
      (ppSegment hilb aAmp aPhase indices data.cols) (data.hconcat data)).cols
        = 2 * data.cols
    rw [ppFold_cols]
    show data.cols + data.cols = 2 * data.cols
    ring
  · have h1 := ppFold_hit hilb aAmp aPhase indices data.cols data j s e r c
      (getD_of_getElem? hj) ⟨hr, hre⟩ (List.range indices.length)
      (data.hconcat data) (List.nodup_range _) hmemj hdisj (hconcat_seg data s e)
    rw [if_pos hc] at h1
    exact h1
  · have h2 := ppFold_hit hilb aAmp aPhase indices data.cols data j s e r
      (data.cols + c) (getD_of_getElem? hj) ⟨hr, hre⟩ (List.range indices.length)
      (data.hconcat data) (List.nodup_range _) hmemj hdisj (hconcat_seg data s e)
    rw [if_neg (by omega), Nat.add_sub_cancel_left] at h2
    exact h2

/-- C7 witness at a concrete instance: a 2×1 ramp, one segment `[0, 2)`, with
the abstract analytic signal instantiated as the identity reading. -/
theorem c7_power_phase_blocks_witness :
    (powerPhaseStage (fun M r c => M.entry r c) (fun x => x) (fun col t => col t)
        ⟨2, 1, fun r _ => (r : ℚ)⟩ [(0, 2)]).cols = 2 ∧
    (powerPhaseStage (fun M r c => M.entry r c) (fun x => x) (fun col t => col t)
        ⟨2, 1, fun r _ => (r : ℚ)⟩ [(0, 2)]).entry 1 0 = 1 ∧
    (powerPhaseStage (fun M r c => M.entry r c) (fun x => x) (fun col t => col t)
        ⟨2, 1, fun r _ => (r : ℚ)⟩ [(0, 2)]).entry 1 1 = 1 := by
  have h := c7_power_phase_blocks (fun M r c => M.entry r c) (fun x => x)
    (fun col t => col t) ⟨2, 1, fun r _ => (r : ℚ)⟩ [(0, 2)] 0 0 2 1 0
    (List.pairwise_singleton _ _) rfl (by omega) (by omega) (by decide)
  refine ⟨?_, ?_, ?_⟩
  · simpa using h.1
  · have := h.2.1
    simpa [Mat.seg] using this
  · have := h.2.2
    simpa [Mat.seg] using this

/-! ### `build_data_tde` (preproc.py 478-546) -/

/-- `np.min` of the lag list (the source calls it on a nonempty list). -/
def listMinI (l : List ℤ) : ℤ :=
  match l with
  | [] => 0
  | x :: xs => xs.foldl min x

/-- `np.max` of the lag list. -/
def listMaxI (l : List ℤ) : ℤ :=
  match l with
  | [] => 0
  | x :: xs => xs.foldl max x

/-- `rwindow = maxlag - minlag` (preproc.py 516). -/
def tdeRw (lags : List ℤ) : ℕ := (listMaxI lags - listMinI lags).toNat

/-- Python slice endpoint resolution (step 1) on an `n`-row array: a negative
endpoint counts from the end, and endpoints clamp to `[0, n]`.  In
particular `-0` is just `0`, the start of the array — the pitfall behind the
`lags=[0]` failure. -/
def pySliceIdx (n : ℕ) (a : ℤ) : ℕ :=
  if a < 0 then ((n : ℤ) + a).toNat else min n a.toNat

/-- Row count of `np.roll(...)[-minlag:-maxlag, :]` (preproc.py 527-528). -/
def tdeClipped (lags : List ℤ) (s e : ℕ) : ℕ :=
  pySliceIdx (e - s) (-(listMaxI lags)) - pySliceIdx (e - s) (-(listMinI lags))

/-- preproc.py 527-528: the value of the rolled-and-clipped segment at
clipped row `m`, channel `ch`.  `np.roll` by `l` makes row `ρ` of the rolled
array read source row `(ρ − l) mod Ti`, and the clip starts at resolved
slice index `-minlag`. -/
def tdeRolledValue (data : Mat) (s e : ℕ) (lags : List ℤ) (l : ℤ) (m ch : ℕ) : ℚ :=
  data.entry
    (s + (((pySliceIdx (e - s) (-(listMinI lags)) : ℤ) + m - l).emod ((e : ℤ) - s)).toNat)
    ch

/-- The write of lag position `i` for segment `j` (preproc.py 529-530): rows
of `ind_2`, columns `c` with `c mod L = i` (the interleaved layout
`ind_ch = np.arange(i, L*p, L)`), channel `c / L`.  When the clipped block
has a single row NumPy broadcasts it across all target rows. -/
def tdeWrite (data : Mat) (lags : List ℤ) (rw j s e : ℕ) (X : Mat) (i : ℕ) : Mat :=
  let L := lags.length
  { X with entry := fun r c =>
      if (s ≤ r + j * rw ∧ r + j * rw < e - rw) ∧ c % L = i ∧ c < data.cols * L then
        (tdeRolledValue data s e lags (lags.getD i 0)
          (if tdeClipped lags s e = 1 then 0 else r + j * rw - s) (c / L))
      else X.entry r c }

/-- preproc.py 530 `X[ind_2, ind_ch[:,None]] = X_l.T`: the assignment
succeeds when the clipped row count equals the `ind_2` length, or broadcasts
when it is 1; any other mismatch raises a NumPy broadcast error (`none`). -/
def tdeWriteLag (data : Mat) (lags : List ℤ) (rw j s e : ℕ) (X : Mat) (i : ℕ) :
    Option Mat :=
  if tdeClipped lags s e = (e - rw) - s ∨ tdeClipped lags s e = 1 then
    some (tdeWrite data lags rw j s e X i)
  else none

/-- One iteration of the embedding loop (preproc.py 522-532): all lag
writes, then the new segment bounds from `ind_2[0]` and `ind_2[-1] + 1`
(an `IndexError`, hence `none`, when `ind_2` is empty). -/
def tdeSegment (data : Mat) (indices : List (ℕ × ℕ)) (lags : List ℤ) (rw : ℕ)
    (acc : Option (Mat × List (ℕ × ℕ))) (j : ℕ) : Option (Mat × List (ℕ × ℕ)) :=
  acc.bind fun XI =>
    let s := (indices.getD j (0, 0)).1
    let e := (indices.getD j (0, 0)).2
    ((List.range lags.length).foldl
        (fun oX i => oX.bind (fun X2 => tdeWriteLag data lags rw j s e X2 i))
        (some XI.1)).bind fun X2 =>
      if (e - rw) - s = 0 then none
      else some (X2, XI.2 ++ [(s - j * rw, (e - rw) - j * rw)])

/-- Result of the TDE builder: the (embedded or standardized) matrix and the
adapted SegmentIndex. -/
structure TDERaw where
  X : Mat
  indicesNew : List (ℕ × ℕ)

/-- The embedding loop of `build_data_tde` (preproc.py 510-532) before
standardisation; `none` models a raised NumPy error. -/
def tdeEmbed (data : Mat) (indices : List (ℕ × ℕ)) (lags : List ℤ) :
    Option TDERaw :=
  if lags.isEmpty then none
  else
    ((List.range indices.length).foldl (tdeSegment data indices lags (tdeRw lags))
        (some (Mat.zeros (data.rows - indices.length * tdeRw lags)
          (data.cols * lags.length), []))).bind
      fun XI => some ⟨XI.1, XI.2⟩

/-- preproc.py 478-546 `build_data_tde`: embed, then standardise the whole
embedded matrix globally (dataset-wide, not per session; preproc.py
536-537), then optionally apply PCA (the fitted estimator object returned by
the source alongside is external and not modelled). -/
def build_data_tde (sqrtQ : ℚ → ℚ) (pcaT : Mat → ℕ → Mat)
    (ncompOf : Mat → ℚ → ℕ) (data : Mat) (indices : List (ℕ × ℕ))
    (lags : List ℤ) (pca : Option PCAArg) : Option TDERaw :=
  (tdeEmbed data indices lags).bind fun raw =>
    let Xs := divColStd sqrtQ raw.X.centerCols
    match pca with
    | none => some ⟨Xs, raw.indicesNew⟩
    | some d => some ⟨(apply_pca_state sqrtQ pcaT ncompOf Xs d).2, raw.indicesNew⟩

/-- C2 (code bug): with `lags=[0]` the window is 0 and the spec (and the
function's docstring shape `n_samples - n_sessions*rwindow`) promise a
standardized copy of the data with segment lengths unchanged; but the clip
`X_l[-minlag:-maxlag]` resolves to `X_l[0:0]` (Python's `-0` is `0`), an
empty slice, so the embedding assignment fails with a broadcast error for
every nonempty input.  On a 3×1 input with one segment the call raises
(`none`) although `T − N·window = 3` output rows were promised. -/
theorem c2_tde_lag_zero_errors :
    build_data_tde (fun x => x) (fun M _ => M) (fun _ _ => 1)
      ⟨3, 1, fun r _ => (r : ℚ)⟩ [(0, 3)] [0] none = none ∧
    (3 : ℕ) - 1 * tdeRw [0] = 3 := by
  exact ⟨rfl, rfl⟩

/-! ### Fold lemmas for the TDE embedding loop -/

/-- The pure per-segment step, equal to `tdeSegment` whenever every lag
assignment shape-checks and `ind_2` is nonempty. -/
def tdeSegmentPure (data : Mat) (indices : List (ℕ × ℕ)) (lags : List ℤ)
    (rw : ℕ) (acc : Mat × List (ℕ × ℕ)) (j : ℕ) : Mat × List (ℕ × ℕ) :=
  let s := (indices.getD j (0, 0)).1
  let e := (indices.getD j (0, 0)).2
  ((List.range lags.length).foldl (tdeWrite data lags rw j s e) acc.1,
   acc.2 ++ [(s - j * rw, (e - rw) - j * rw)])

/-- Initial accumulator of the embedding loop (preproc.py 518-519). -/
def tdeInit (data : Mat) (indices : List (ℕ × ℕ)) (lags : List ℤ) :
    Mat × List (ℕ × ℕ) :=
  (Mat.zeros (data.rows - indices.length * tdeRw lags)
    (data.cols * lags.length), [])

/-- The embedding-loop state after all segments (pure version). -/
def tdeFoldPure (data : Mat) (indices : List (ℕ × ℕ)) (lags : List ℤ) :
    Mat × List (ℕ × ℕ) :=
  (List.range indices.length).foldl
    (tdeSegmentPure data indices lags (tdeRw lags)) (tdeInit data indices lags)

theorem tdeLagFold_some (data : Mat) (lags : List ℤ) (rw j s e : ℕ)
    (hok : tdeClipped lags s e = (e - rw) - s ∨ tdeClipped lags s e = 1) :
    ∀ (lst : List ℕ) (X : Mat),
      lst.foldl
          (fun oX i => oX.bind (fun X2 => tdeWriteLag data lags rw j s e X2 i))
          (some X)
        = some (lst.foldl (tdeWrite data lags rw j s e) X) := by
  intro lst
  induction lst with
  | nil => intro X; rfl
  | cons a l ih =>
    intro X
    rw [List.foldl_cons, List.foldl_cons]
    have hstep : (some X).bind (fun X2 => tdeWriteLag data lags rw j s e X2 a)
        = some (tdeWrite data lags rw j s e X a) := by
      rw [Option.some_bind, tdeWriteLag, if_pos hok]
    rw [hstep, ih]

theorem tdeSegFold_some (data : Mat) (indices : List (ℕ × ℕ)) (lags : List ℤ)
    (rw : ℕ) :
    ∀ (lst : List ℕ) (acc : Mat × List (ℕ × ℕ)),
      (∀ j2 ∈ lst,
        tdeClipped lags (indices.getD j2 (0, 0)).1 (indices.getD j2 (0, 0)).2
          = (((indices.getD j2 (0, 0)).2 - rw) - (indices.getD j2 (0, 0)).1) ∧
        (((indices.getD j2 (0, 0)).2 - rw) - (indices.getD j2 (0, 0)).1) ≠ 0) →
      lst.foldl (tdeSegment data indices lags rw) (some acc)
        = some (lst.foldl (tdeSegmentPure data indices lags rw) acc) := by
  intro lst
  induction lst with
  | nil => intro acc _; rfl
  | cons a l ih =>
    intro acc hok
    rw [List.foldl_cons, List.foldl_cons]
    have hstep : tdeSegment data indices lags rw (some acc) a
        = some (tdeSegmentPure data indices lags rw acc a) := by
      have h1 := (hok a (by simp)).1
      have h2 := (hok a (by simp)).2
      simp only [tdeSegment, Option.some_bind]
      rw [tdeLagFold_some data lags rw a _ _ (Or.inl h1), Option.some_bind,
        if_neg h2]
      rfl
    rw [hstep]
    exact ih _ (fun j2 hj2 => hok j2 (by simp [hj2]))

theorem tdeWriteFold_not_row (data : Mat) (lags : List ℤ) (rw j s e r c : ℕ)
    (hrow : ¬ (s ≤ r + j * rw ∧ r + j * rw < e - rw)) :
    ∀ (lst : List ℕ) (X : Mat),
      (lst.foldl (tdeWrite data lags rw j s e) X).entry r c = X.entry r c := by
  intro lst
  induction lst with
  | nil => intro X; rfl
  | cons a l ih =>
    intro X
    rw [List.foldl_cons, ih]
    simp only [tdeWrite]
    exact if_neg (fun h => hrow h.1)

theorem tdeWriteFold_not_col (data : Mat) (lags : List ℤ) (rw j s e r c : ℕ) :
    ∀ (lst : List ℕ) (X : Mat),
      (∀ i ∈ lst, c % lags.length ≠ i) →
      (lst.foldl (tdeWrite data lags rw j s e) X).entry r c = X.entry r c := by
  intro lst
  induction lst with
  | nil => intro X _; rfl
  | cons a l ih =>
    intro X hcol
    rw [List.foldl_cons, ih _ (fun i hi => hcol i (by simp [hi]))]
    simp only [tdeWrite]
    exact if_neg (fun h => hcol a (by simp) h.2.1)

theorem tdeWriteFold_hit (data : Mat) (lags : List ℤ) (rw j s e r c i : ℕ)
    (hrow : s ≤ r + j * rw ∧ r + j * rw < e - rw)
    (hcol : c % lags.length = i ∧ c < data.cols * lags.length) :
    ∀ (lst : List ℕ) (X : Mat), i ∈ lst →
      (lst.foldl (tdeWrite data lags rw j s e) X).entry r c
        = tdeRolledValue data s e lags (lags.getD i 0)
            (if tdeClipped lags s e = 1 then 0 else r + j * rw - s)
            (c / lags.length) := by
  intro lst
  induction lst with
  | nil => intro X h; simp at h
  | cons a l ih =>
    intro X hmem
    rw [List.foldl_cons]
    by_cases hil : i ∈ l
    · exact ih _ hil
    · have hai : a = i := by
        rcases List.mem_cons.mp hmem with h | h
        · exact h.symm
        · exact absurd h hil
      subst hai
      rw [tdeWriteFold_not_col data lags rw j s e r c l _
        (fun i2 hi2 hc2 => hil ((hcol.1 ▸ hc2 : a = i2) ▸ hi2))]
      simp only [tdeWrite]
      rw [if_pos ⟨hrow, hcol.1, hcol.2⟩]

theorem tdeFold_untouched (data : Mat) (indices : List (ℕ × ℕ)) (lags : List ℤ)
    (rw r c : ℕ) :
    ∀ (lst : List ℕ) (acc : Mat × List (ℕ × ℕ)),
      (∀ a ∈ lst, ¬ arRowCond indices rw a r) →
      ((lst.foldl (tdeSegmentPure data indices lags rw) acc).1.entry r c
        = acc.1.entry r c) := by
  intro lst
  induction lst with
  | nil => intro acc _; rfl
  | cons a l ih =>
    intro acc hno
    rw [List.foldl_cons, ih _ (fun a2 ha2 => hno a2 (by simp [ha2]))]
    simp only [tdeSegmentPure]
    refine tdeWriteFold_not_row data lags rw a _ _ r c ?_ _ _
    intro hcontra
    apply hno a (by simp)
    rw [arRowCond]
    omega

theorem tdeFold_hit (data : Mat) (indices : List (ℕ × ℕ)) (lags : List ℤ)
    (rw r c i j s e : ℕ)
    (hj : indices.getD j (0, 0) = (s, e))
    (hrow : s ≤ r + j * rw ∧ r + j * rw < e - rw)
    (hcol : c % lags.length = i ∧ c < data.cols * lags.length) :
    ∀ (lst : List ℕ) (acc : Mat × List (ℕ × ℕ)), j ∈ lst →
      (∀ a ∈ lst, arRowCond indices rw a r → a = j) →
      ((lst.foldl (tdeSegmentPure data indices lags rw) acc).1.entry r c
        = tdeRolledValue data s e lags (lags.getD i 0)
            (if tdeClipped lags s e = 1 then 0 else r + j * rw - s)
            (c / lags.length)) := by
  intro lst
  induction lst with
  | nil => intro acc h _; simp at h
  | cons a l ih =>
    intro acc hmem huniq
    rw [List.foldl_cons]
    by_cases hjl : j ∈ l
    · exact ih _ hjl (fun a2 ha2 h2 => huniq a2 (by simp [ha2]) h2)
    · have haj : a = j := by
        rcases List.mem_cons.mp hmem with h | h
        · exact h.symm
        · exact absurd h hjl
      subst haj
      rw [tdeFold_untouched data indices lags rw r c l _
        (fun a2 ha2 h2 => hjl (huniq a2 (by simp [ha2]) h2 ▸ ha2))]
      simp only [tdeSegmentPure, hj]
      exact tdeWriteFold_hit data lags rw a s e r c i hrow hcol _ _
        (List.mem_range.mpr (hcol.1 ▸ Nat.mod_lt c (by
          rcases Nat.eq_zero_or_pos lags.length with h0 | h0
          · exfalso
            have := hcol.2
            rw [h0] at this
            omega
          · exact h0)))

/-- When `min(lags) ≤ 0 < max(lags)` and the segment is longer than the
window, the clip length equals the `ind_2` length `Ti − rwindow` — the
rotate-then-clip semantics is exact (no broadcast, no error). -/
theorem tdeClipped_eq (lags : List ℤ) (s e rwv : ℕ)
    (hmin : listMinI lags ≤ 0) (hmax : 0 < listMaxI lags)
    (hrw : rwv = (listMaxI lags - listMinI lags).toNat)
    (hlen : s + rwv < e) :
    tdeClipped lags s e = (e - rwv) - s := by
  have hsplit : rwv = (listMaxI lags).toNat + (-(listMinI lags)).toNat := by
    omega
  simp only [tdeClipped, pySliceIdx]
  rw [if_pos (show (-(listMaxI lags) : ℤ) < 0 by omega),
    if_neg (show ¬ ((-(listMinI lags) : ℤ) < 0) by omega)]
  omega

/-- Under the same conditions and a valid SegmentIndex the embedding loop
raises nothing: `tdeEmbed` returns exactly the pure fold. -/
theorem tdeEmbed_eq_pure (data : Mat) (indices : List (ℕ × ℕ)) (lags : List ℤ)
    (hL : lags ≠ []) (hmin : listMinI lags ≤ 0) (hmax : 0 < listMaxI lags)
    (hval : ValidSegs indices (tdeRw lags)) :
    tdeEmbed data indices lags =
      some ⟨(tdeFoldPure data indices lags).1, (tdeFoldPure data indices lags).2⟩ := by
  have hemp : ¬ (lags.isEmpty = true) := by
    cases lags with
    | nil => exact absurd rfl hL
    | cons x xs => simp [List.isEmpty]
  rw [tdeEmbed, if_neg hemp]
  show ((List.range indices.length).foldl (tdeSegment data indices lags (tdeRw lags))
      (some (tdeInit data indices lags))).bind
      (fun XI => some (⟨XI.1, XI.2⟩ : TDERaw))
    = some ⟨(tdeFoldPure data indices lags).1, (tdeFoldPure data indices lags).2⟩
  rw [tdeSegFold_some data indices lags (tdeRw lags) (List.range indices.length)
    (tdeInit data indices lags) ?hok]
  · rfl
  case hok =>
    intro j2 hj2
    have hj2N : j2 < indices.length := List.mem_range.mp hj2
    have hgd : indices.getD j2 (0, 0) = indices[j2] := by
      rw [List.getD_eq_getElem?_getD, List.getElem?_eq_getElem hj2N]
      rfl
    have hmem : indices[j2] ∈ indices := List.getElem_mem hj2N
    have hlen := hval.2 indices[j2] hmem
    rw [hgd]
    constructor
    · exact tdeClipped_eq lags (indices[j2]).1 (indices[j2]).2 (tdeRw lags)
        hmin hmax rfl hlen
    · omega

/-- C10: in the delay-embedding builder the output columns are interleaved
lag-fastest within each channel block (`ind_ch = np.arange(i, L*p, L)`):
with `L` lags, the embedded value of source channel `ch` at lag-list
position `i` occupies output column `ch·L + i` — the opposite of the
autoregressive builder's lag-major layout `i·p + ch`.  The value there is
the rolled-and-clipped sample of channel `ch` for lag `lags[i]`, and the
builder returns this embedded matrix standardized globally. -/
theorem c10_tde_interleaved_layout (sqrtQ : ℚ → ℚ) (pcaT : Mat → ℕ → Mat)
    (ncompOf : Mat → ℚ → ℕ) (data : Mat) (indices : List (ℕ × ℕ))
    (lags : List ℤ) (j s e m i ch : ℕ)
    (hL : lags ≠ []) (hmin : listMinI lags ≤ 0) (hmax : 0 < listMaxI lags)
    (hval : ValidSegs indices (tdeRw lags))
    (hj : indices[j]? = some (s, e))
    (hm : m < (e - tdeRw lags) - s) (hi : i < lags.length) (hch : ch < data.cols) :
    (tdeFoldPure data indices lags).1.entry (s - j * tdeRw lags + m)
        (ch * lags.length + i)
      = tdeRolledValue data s e lags (lags.getD i 0) m ch ∧
    build_data_tde sqrtQ pcaT ncompOf data indices lags none
      = some ⟨divColStd sqrtQ (tdeFoldPure data indices lags).1.centerCols,
          (tdeFoldPure data indices lags).2⟩ := by
  have hsj : j * tdeRw lags ≤ s := seg_start_mul_le indices (tdeRw lags) hval j (s, e) hj
  have hlenj : s + tdeRw lags < e := hval.2 _ (seg_mem_of_getElem? hj)
  have hkey : s - j * tdeRw lags + m + j * tdeRw lags = s + m := by
    rw [Nat.add_right_comm, Nat.sub_add_cancel hsj]
  have hrow : s ≤ (s - j * tdeRw lags + m) + j * tdeRw lags ∧
      (s - j * tdeRw lags + m) + j * tdeRw lags < e - tdeRw lags := by
    rw [hkey]
    omega
  have hLpos : 0 < lags.length := List.length_pos.mpr hL
  have hcolmod : (ch * lags.length + i) % lags.length = i := by
    rw [Nat.add_comm, Nat.add_mul_mod_self_right, Nat.mod_eq_of_lt hi]
  have hcollt : ch * lags.length + i < data.cols * lags.length := by
    have h1 : ch + 1 ≤ data.cols := hch
    have h2 : (ch + 1) * lags.length ≤ data.cols * lags.length :=
      mul_le_mul_right' h1 lags.length
    have h3 : ch * lags.length + i < (ch + 1) * lags.length := by
      have : (ch + 1) * lags.length = ch * lags.length + lags.length := by ring
      omega
    omega
  have hcoldiv : (ch * lags.length + i) / lags.length = ch := by
    rw [Nat.add_comm, Nat.add_mul_div_right i ch hLpos, Nat.div_eq_of_lt hi]
    omega
  have huniq : ∀ a ∈ List.range indices.length,
      arRowCond indices (tdeRw lags) a (s - j * tdeRw lags + m) → a = j := by
    intro a _ hc
    exact seg_row_unique indices (tdeRw lags) hval j s e m hj (by omega) a hc
  have hclip := tdeClipped_eq lags s e (tdeRw lags) hmin hmax rfl hlenj
  constructor
  · have hhit := tdeFold_hit data indices lags (tdeRw lags)
      (s - j * tdeRw lags + m) (ch * lags.length + i) i j s e
      (getD_of_getElem? hj) hrow ⟨hcolmod, hcollt⟩
      (List.range indices.length) (tdeInit data indices lags)
      (List.mem_range.mpr (lt_length_of_getElem? hj)) huniq
    rw [tdeFoldPure, hhit, hcoldiv]
    by_cases h1 : tdeClipped lags s e = 1
    · rw [if_pos h1]
      have : m = 0 := by omega
      rw [this]
    · rw [if_neg h1]
      have : s - j * tdeRw lags + m + j * tdeRw lags - s = m := by
        rw [hkey]
        omega
      rw [this]
  · rw [build_data_tde, tdeEmbed_eq_pure data indices lags hL hmin hmax hval,
      Option.some_bind]

/-- C10 witness: a 4×1 ramp, one segment `[0,4)`, lags `[-1, 1]` (`L = 2`,
window 2): channel 0 at lag position 0 (lag −1) lands in column
`0·2 + 0 = 0`, and at output row 0 it reads source sample 2. -/
theorem c10_tde_interleaved_layout_witness :
    (tdeFoldPure ⟨4, 1, fun r _ => (r : ℚ)⟩ [(0, 4)] [-1, 1]).1.entry 0 0 = 2 ∧
    build_data_tde (fun x => x) (fun M _ => M) (fun _ _ => 1)
        ⟨4, 1, fun r _ => (r : ℚ)⟩ [(0, 4)] [-1, 1] none
      = some ⟨divColStd (fun x => x)
          (tdeFoldPure ⟨4, 1, fun r _ => (r : ℚ)⟩ [(0, 4)] [-1, 1]).1.centerCols,
          (tdeFoldPure ⟨4, 1, fun r _ => (r : ℚ)⟩ [(0, 4)] [-1, 1]).2⟩ := by
  have h := c10_tde_interleaved_layout (fun x => x) (fun M _ => M) (fun _ _ => 1)
    ⟨4, 1, fun r _ => (r : ℚ)⟩ [(0, 4)] [-1, 1] 0 0 4 0 0 0
    (by decide) (by decide) (by decide)
    ⟨List.pairwise_singleton _ _, by decide⟩ rfl (by decide) (by decide) (by decide)
  constructor
  · have h1 := h.1
    simp only [Nat.zero_mul, Nat.sub_zero, Nat.add_zero, Nat.mul_zero] at h1
    rw [h1]
    norm_num [tdeRolledValue, pySliceIdx, listMinI, listMaxI]
    rfl
  · exact h.2

end GLHMM
